import Mathlib

/-!
Shallow embedding of `memoized_kerney` (src/src/lib.rs): a memoizing cache
for geodesic distance queries.  Machine `f64` values are embedded as their
64-bit patterns; the IEEE-754 comparison used by Rust's derived
`PartialOrd` for `Position` is computed from the bit pattern (NaN values
are incomparable, `+0.0` and `-0.0` compare equal).  The external geodesic
solver (`geographiclib_rs::Geodesic::inverse`, an external crate) is an
opaque pure function parameter, as the spec's solver interface describes.
The `moka` cache is embedded as an association map from key pairs to
values with explicit state passing; key equality is the byte-wise equality
of `Position`'s `PartialEq` impl.
-/

/-- An IEEE-754 binary64 value, represented by its 64-bit pattern
(the value `f64::to_ne_bytes` serialises). -/
structure F64 where
  bits : Fin (2 ^ 64)
  deriving DecidableEq

/-- Sign bit of a binary64 pattern. -/
def F64.sign (x : F64) : Nat := x.bits.val / 2 ^ 63

/-- The 63 low bits (biased exponent and mantissa) of a binary64 pattern. -/
def F64.mag (x : F64) : Nat := x.bits.val % 2 ^ 63

/-- NaN: biased exponent all ones and mantissa nonzero, i.e. the low 63
bits exceed the pattern of `+inf` (`0x7FF0000000000000`). -/
def F64.isNaN (x : F64) : Bool := decide (2047 * 2 ^ 52 < x.mag)

/-- Order key of a non-NaN binary64: magnitude, negated when the sign bit
is set.  Both zeros map to `0`, so `+0.0` and `-0.0` compare equal, and on
each sign the bit pattern is monotone in the value (IEEE-754). -/
def F64.key (x : F64) : Int := if x.sign = 0 then (x.mag : Int) else -(x.mag : Int)

/-- Three-way comparison on `Int`. -/
def icmp (x y : Int) : Ordering :=
  if x < y then Ordering.lt else if y < x then Ordering.gt else Ordering.eq

/-- `f64::partial_cmp`: `none` when either operand is NaN, otherwise the
numeric IEEE-754 comparison. -/
def f64_cmp (x y : F64) : Option Ordering :=
  if x.isNaN || y.isNaN then none else some (icmp x.key y.key)

/-- `Position { lat: f64, lon: f64 }` (src/src/lib.rs:20-23). -/
structure Position where
  lat : F64
  lon : F64
  deriving DecidableEq

/-- The derived `PartialOrd for Position`: lexicographic
`partial_cmp` over the fields `(lat, lon)` using `f64::partial_cmp`. -/
def posCmp (p q : Position) : Option Ordering :=
  match f64_cmp p.lat q.lat with
  | some Ordering.eq => f64_cmp p.lon q.lon
  | o => o

/-- `a_pos > b_pos` for `Position`: `PartialOrd::gt`, i.e.
`matches!(partial_cmp(a, b), Some(Greater))`. -/
def posGt (p q : Position) : Bool := decide (posCmp p q = some Ordering.gt)

/-- `f64::to_ne_bytes` of a binary64 pattern: its eight bytes (fixed
byte order; only equality of byte arrays is ever consumed). -/
def toBytes (x : F64) : List Nat :=
  [x.bits.val % 256, x.bits.val / 256 % 256, x.bits.val / 65536 % 256,
   x.bits.val / 16777216 % 256, x.bits.val / 4294967296 % 256,
   x.bits.val / 1099511627776 % 256, x.bits.val / 281474976710656 % 256,
   x.bits.val / 72057594037927936 % 256]

/-- `PartialEq for Position` (src/src/lib.rs:24-30): byte-wise equality of
both coordinates' `to_ne_bytes`, combined with `&`. -/
def positionEq (p q : Position) : Bool :=
  decide (toBytes p.lat = toBytes q.lat) && decide (toBytes p.lon = toBytes q.lon)

/-- `Hash for Position` (src/src/lib.rs:32-37): the byte stream written to
the hasher state, `lat.to_ne_bytes()` then `lon.to_ne_bytes()`. -/
def hashInput (p : Position) : List Nat := toBytes p.lat ++ toBytes p.lon

/-- `DistanceData` (src/src/lib.rs:69-76). -/
structure DistanceData where
  distance : F64
  forward_azimuth : F64
  backward_azimuth : F64
  deriving DecidableEq

/-- `DistanceData::swap_azimuth` (src/src/lib.rs:80-84): exchange the two
azimuth fields when `should_swap` holds. -/
def DistanceData.swap_azimuth (d : DistanceData) (should_swap : Bool) : DistanceData :=
  if should_swap then
    { d with forward_azimuth := d.backward_azimuth, backward_azimuth := d.forward_azimuth }
  else d

/-- The external inverse-geodesic solver
(`wgs84.inverse(lat1, lon1, lat2, lon2) -> (s12, azi1, azi2, _)`),
an opaque pure function of the two positions. -/
abbrev Solver := Position → Position → DistanceData

/-- The canonicalization step shared by `uncached_distance` and `distance`
(src/src/lib.rs:132-137 and 159-164): `tup = if a > b { (b, a) } else { (a, b) }`. -/
def canonKey (a b : Position) : Position × Position :=
  if posGt a b then (b, a) else (a, b)

/-- `uncached_distance` (src/src/lib.rs:123-149), with the generic
`IntoPosition` arguments specialised to `Position` (for which
`into_position` is the identity) and the solver a parameter. -/
def uncached_distance (solve : Solver) (a b : Position) : DistanceData :=
  let flip := posGt a b
  let tup := canonKey a b
  let dist := solve tup.1 tup.2
  dist.swap_azimuth flip

/-- The `moka` cache contents: an association map from `(Position, Position)`
keys to `DistanceData`, keyed by `Position`'s (byte-wise) `PartialEq`. -/
abbrev CacheMap := List ((Position × Position) × DistanceData)

/-- Key equivalence of the cache: component-wise `Position` `PartialEq`. -/
def keyEq (k j : Position × Position) : Bool :=
  positionEq k.1 j.1 && positionEq k.2 j.2

/-- `Cache::get`: the value of the first (unique) entry whose key matches. -/
def cacheGet (c : CacheMap) (k : Position × Position) : Option DistanceData :=
  (c.find? (fun e => keyEq e.1 k)).map (fun e => e.2)

/-- `Cache::insert`: bind `k` to `v`, replacing any previous binding. -/
def cacheInsert (c : CacheMap) (k : Position × Position) (v : DistanceData) : CacheMap :=
  (k, v) :: c.filter (fun e => !(keyEq e.1 k))

/-- `distance` (src/src/lib.rs:152-178): canonicalize, probe the cache,
on a hit return the stored value with azimuths swapped when `flip`; on a
miss compute `uncached_distance` on the canonical pair, insert the
unswapped value, and return it swapped when `flip`.  The cache is passed
and returned explicitly in place of the global `DISTANCE_CACHE`. -/
def distance (solve : Solver) (c : CacheMap) (a b : Position) : DistanceData × CacheMap :=
  let flip := posGt a b
  let tup := canonKey a b
  match cacheGet c tup with
  | some dist => (dist.swap_azimuth flip, c)
  | none =>
    let dist := uncached_distance solve tup.1 tup.2
    (dist.swap_azimuth flip, cacheInsert c tup dist)

/-- Configuration of the `moka` cache builder. -/
structure CacheConfig where
  time_to_idle_secs : Nat
  initial_capacity : Nat
  max_capacity : Nat
  deriving DecidableEq

/-- The configuration `DISTANCE_CACHE` is built with, once per process
(src/src/lib.rs:100-109): `time_to_idle(90s)`, `initial_capacity(64)`,
`max_capacity(65356)`. -/
def DISTANCE_CACHE_config : CacheConfig :=
  { time_to_idle_secs := 90, initial_capacity := 64, max_capacity := 65356 }

/-- Cache states reachable by the protocol: every stored value is the
uncached computation of its key.  The empty cache satisfies it and
`distance` preserves it. -/
def Consistent (solve : Solver) (c : CacheMap) : Prop :=
  ∀ e ∈ c, e.2 = uncached_distance solve e.1.1 e.1.2

instance (solve : Solver) (c : CacheMap) : Decidable (Consistent solve c) :=
  inferInstanceAs (Decidable (∀ e ∈ c, e.2 = uncached_distance solve e.1.1 e.1.2))

/-- Number of cache entries keyed by either orientation of the unordered
pair `{a, b}`. -/
def pairCount (c : CacheMap) (a b : Position) : Nat :=
  c.countP (fun e => keyEq e.1 (a, b) || keyEq e.1 (b, a))

/-- The binary64 pattern of `1.0`. -/
def oneF : F64 := ⟨⟨0x3FF0000000000000, by norm_num⟩⟩

/-- The binary64 pattern adjacent to `1.0` (last mantissa bit set). -/
def oneNextF : F64 := ⟨⟨0x3FF0000000000001, by norm_num⟩⟩

/-- The binary64 pattern of `2.0`. -/
def twoF : F64 := ⟨⟨0x4000000000000000, by norm_num⟩⟩

/-- The binary64 pattern of `+0.0`. -/
def zeroF : F64 := ⟨⟨0, by norm_num⟩⟩

/-- The binary64 pattern of `-0.0` (sign bit only). -/
def negZeroF : F64 := ⟨⟨0x8000000000000000, by norm_num⟩⟩

/-- The canonical quiet-NaN binary64 pattern. -/
def nanF : F64 := ⟨⟨0x7FF8000000000000, by norm_num⟩⟩

/-- Position `(1.0, 0.0)`. -/
def pOne : Position := ⟨oneF, zeroF⟩

/-- Position `(1.0 + ulp, 0.0)`: differs from `pOne` in the last bit of
latitude only. -/
def pOneNext : Position := ⟨oneNextF, zeroF⟩

/-- Position `(2.0, 0.0)`. -/
def pTwo : Position := ⟨twoF, zeroF⟩

/-- Position `(+0.0, 0.0)`. -/
def pPosZero : Position := ⟨zeroF, zeroF⟩

/-- Position `(-0.0, 0.0)`: numerically equal to `pPosZero`, bitwise
distinct from it. -/
def pNegZero : Position := ⟨negZeroF, zeroF⟩

/-- Position `(NaN, 0.0)`: non-finite latitude. -/
def pNaN : Position := ⟨nanF, zeroF⟩

/-- Position `(1.0, NaN)`: non-finite longitude. -/
def pNanLon : Position := ⟨oneF, nanF⟩

/-- A concrete pure solver used to instantiate theorems at concrete
inputs. -/
def demoSolve : Solver := fun p q =>
  { distance := p.lat, forward_azimuth := p.lon, backward_azimuth := q.lat }

/-- A pure solver that distinguishes the sign bit of its first argument's
latitude: a legitimate instance of the opaque solver interface, used to
exhibit order sensitivity on bitwise-distinct numerically-equal inputs. -/
def signSolve : Solver := fun p _ =>
  if p.lat.sign = 0 then { distance := oneF, forward_azimuth := oneF, backward_azimuth := oneF }
  else { distance := twoF, forward_azimuth := twoF, backward_azimuth := twoF }

/-- The all-NaN result a numeric geodesic solver produces on non-finite
input. -/
def nanData : DistanceData :=
  { distance := nanF, forward_azimuth := nanF, backward_azimuth := nanF }

/-- A pure solver modelling NaN propagation of the numeric inverse-geodesic
computation: non-finite input yields an all-NaN result. -/
def propagatingSolve : Solver := fun p q =>
  if p.lat.isNaN || p.lon.isNaN || q.lat.isNaN || q.lon.isNaN then nanData
  else { distance := zeroF, forward_azimuth := zeroF, backward_azimuth := zeroF }

/-! ### Byte-wise equality -/

theorem toBytes_inj {x y : F64} (h : toBytes x = toBytes y) : x = y := by
  obtain ⟨⟨xv, hx⟩⟩ := x
  obtain ⟨⟨yv, hy⟩⟩ := y
  have hx2 : xv < 18446744073709551616 := by simpa using hx
  have hy2 : yv < 18446744073709551616 := by simpa using hy
  simp only [toBytes, List.cons.injEq, and_true] at h
  have : xv = yv := by omega
  subst this
  rfl

theorem positionEq_iff (p q : Position) : positionEq p q = true ↔ p = q := by
  constructor
  · intro h
    simp only [positionEq, Bool.and_eq_true, decide_eq_true_eq] at h
    obtain ⟨plat, plon⟩ := p
    obtain ⟨qlat, qlon⟩ := q
    obtain ⟨h1, h2⟩ := h
    cases toBytes_inj h1
    cases toBytes_inj h2
    rfl
  · rintro rfl
    simp [positionEq]

theorem keyEq_iff (k j : Position × Position) : keyEq k j = true ↔ k = j := by
  obtain ⟨k1, k2⟩ := k
  obtain ⟨j1, j2⟩ := j
  simp [keyEq, positionEq_iff]

theorem keyEq_self (k : Position × Position) : keyEq k k = true :=
  (keyEq_iff k k).2 rfl

theorem keyEq_false_of_ne {k j : Position × Position} (h : k ≠ j) : keyEq k j = false := by
  cases hk : keyEq k j
  · rfl
  · exact absurd ((keyEq_iff k j).1 hk) h

/-! ### The order on positions -/

theorem icmp_self (x : Int) : icmp x x = Ordering.eq := by
  simp [icmp]

theorem icmp_gt_iff {x y : Int} : icmp x y = Ordering.gt ↔ y < x := by
  by_cases h1 : x < y
  · simp only [icmp, if_pos h1]
    constructor
    · intro hc; exact absurd hc (by decide)
    · intro hy; omega
  · by_cases h2 : y < x <;> simp [icmp, h1, h2]

theorem icmp_lt_iff {x y : Int} : icmp x y = Ordering.lt ↔ x < y := by
  by_cases h1 : x < y
  · simp [icmp, h1]
  · by_cases h2 : y < x <;> simp [icmp, h1, h2]

theorem icmp_eq_iff {x y : Int} : icmp x y = Ordering.eq ↔ x = y := by
  by_cases h1 : x < y
  · simp only [icmp, if_pos h1]
    constructor
    · intro hc; exact absurd hc (by decide)
    · intro hy; omega
  · by_cases h2 : y < x
    · simp only [icmp, if_neg h1, if_pos h2]
      constructor
      · intro hc; exact absurd hc (by decide)
      · intro hy; omega
    · simp only [icmp, if_neg h1, if_neg h2]
      constructor
      · intro _; omega
      · intro _; trivial

theorem f64_cmp_self (x : F64) :
    f64_cmp x x = if x.isNaN then none else some Ordering.eq := by
  simp [f64_cmp, icmp_self]

theorem f64_cmp_gt_asymm {x y : F64} (h : f64_cmp x y = some Ordering.gt) :
    f64_cmp y x = some Ordering.lt := by
  unfold f64_cmp at h ⊢
  by_cases hx : x.isNaN <;> by_cases hy : y.isNaN <;> simp [hx, hy] at h ⊢
  rw [icmp_lt_iff]
  exact icmp_gt_iff.1 h

theorem f64_cmp_eq_symm {x y : F64} (h : f64_cmp x y = some Ordering.eq) :
    f64_cmp y x = some Ordering.eq := by
  unfold f64_cmp at h ⊢
  by_cases hx : x.isNaN <;> by_cases hy : y.isNaN <;> simp [hx, hy] at h ⊢
  rw [icmp_eq_iff]
  exact (icmp_eq_iff.1 h).symm

theorem f64_cmp_none_symm {x y : F64} (h : f64_cmp x y = none) :
    f64_cmp y x = none := by
  unfold f64_cmp at h ⊢
  by_cases hx : x.isNaN <;> by_cases hy : y.isNaN <;> simp [hx, hy] at h ⊢


theorem posCmp_eq_of_lat {p q : Position} {o : Option Ordering}
    (h : f64_cmp p.lat q.lat = o) (ho : o ≠ some Ordering.eq) : posCmp p q = o := by
  unfold posCmp
  rw [h]
  cases o with
  | none => rfl
  | some ord =>
    cases ord with
    | lt => rfl
    | eq => exact absurd rfl ho
    | gt => rfl

theorem posCmp_eq_of_lat_eq {p q : Position}
    (h : f64_cmp p.lat q.lat = some Ordering.eq) : posCmp p q = f64_cmp p.lon q.lon := by
  unfold posCmp
  rw [h]

theorem posCmp_inv (p q : Position) :
    (f64_cmp p.lat q.lat = some Ordering.eq ∧ posCmp p q = f64_cmp p.lon q.lon) ∨
    (f64_cmp p.lat q.lat ≠ some Ordering.eq ∧ posCmp p q = f64_cmp p.lat q.lat) := by
  cases hl : f64_cmp p.lat q.lat with
  | none => exact Or.inr ⟨by simp, posCmp_eq_of_lat hl (by simp)⟩
  | some o =>
    cases o with
    | lt => exact Or.inr ⟨by simp, posCmp_eq_of_lat hl (by simp)⟩
    | eq => exact Or.inl ⟨rfl, posCmp_eq_of_lat_eq hl⟩
    | gt => exact Or.inr ⟨by simp, posCmp_eq_of_lat hl (by simp)⟩

theorem posGt_true_iff {p q : Position} : posGt p q = true ↔ posCmp p q = some Ordering.gt := by
  simp [posGt]

theorem posGt_false_iff {p q : Position} : posGt p q = false ↔ posCmp p q ≠ some Ordering.gt := by
  simp [posGt]

theorem posGt_self (p : Position) : posGt p p = false := by
  rw [posGt_false_iff]
  rcases posCmp_inv p p with ⟨_, he⟩ | ⟨hl, he⟩
  · rw [he, f64_cmp_self]
    by_cases n : p.lon.isNaN
    · rw [if_pos n]; simp
    · rw [if_neg n]; simp
  · rw [he, f64_cmp_self]
    by_cases n : p.lat.isNaN
    · rw [if_pos n]; simp
    · exact absurd (by rw [f64_cmp_self, if_neg n]) hl

theorem posCmp_gt_asymm {p q : Position} (h : posCmp p q = some Ordering.gt) :
    posCmp q p = some Ordering.lt := by
  rcases posCmp_inv p q with ⟨hl, he⟩ | ⟨hl, he⟩
  · rw [he] at h
    rw [posCmp_eq_of_lat_eq (f64_cmp_eq_symm hl)]
    exact f64_cmp_gt_asymm h
  · rw [he] at h
    exact posCmp_eq_of_lat (f64_cmp_gt_asymm h) (by simp)

theorem posCmp_eq_symm {p q : Position} (h : posCmp p q = some Ordering.eq) :
    posCmp q p = some Ordering.eq := by
  rcases posCmp_inv p q with ⟨hl, he⟩ | ⟨hl, he⟩
  · rw [he] at h
    rw [posCmp_eq_of_lat_eq (f64_cmp_eq_symm hl)]
    exact f64_cmp_eq_symm h
  · rw [he] at h
    exact absurd h hl

theorem posCmp_none_symm {p q : Position} (h : posCmp p q = none) :
    posCmp q p = none := by
  rcases posCmp_inv p q with ⟨hl, he⟩ | ⟨hl, he⟩
  · rw [he] at h
    rw [posCmp_eq_of_lat_eq (f64_cmp_eq_symm hl)]
    exact f64_cmp_none_symm h
  · rw [he] at h
    exact posCmp_eq_of_lat (f64_cmp_none_symm h) (by simp)

theorem posGt_asymm {p q : Position} (h : posGt p q = true) : posGt q p = false := by
  rw [posGt_false_iff]
  rw [posCmp_gt_asymm (posGt_true_iff.1 h)]
  simp

theorem posGt_false_of_undecided {p q : Position}
    (h : posCmp p q = some Ordering.eq ∨ posCmp p q = none) : posGt p q = false := by
  rw [posGt_false_iff]
  rcases h with h | h <;> rw [h] <;> simp

/-! ### Canonicalization -/

theorem canonKey_of_gt {a b : Position} (h : posGt a b = true) : canonKey a b = (b, a) := by
  simp [canonKey, h]

theorem canonKey_of_not_gt {a b : Position} (h : posGt a b = false) : canonKey a b = (a, b) := by
  simp [canonKey, h]

theorem posGt_canon (a b : Position) : posGt (canonKey a b).1 (canonKey a b).2 = false := by
  cases h : posGt a b
  · rw [canonKey_of_not_gt h]
    exact h
  · rw [canonKey_of_gt h]
    exact posGt_asymm h

theorem canonKey_symm {a b : Position}
    (hab : posGt a b = true ∨ posGt b a = true ∨ a = b) : canonKey b a = canonKey a b := by
  rcases hab with h | h | h
  · rw [canonKey_of_gt h, canonKey_of_not_gt (posGt_asymm h)]
  · rw [canonKey_of_gt h, canonKey_of_not_gt (posGt_asymm h)]
  · rw [h]

/-! ### The uncached path -/

theorem uncached_eq (solve : Solver) (a b : Position) :
    uncached_distance solve a b =
      (solve (canonKey a b).1 (canonKey a b).2).swap_azimuth (posGt a b) := rfl

theorem swap_azimuth_false (d : DistanceData) : d.swap_azimuth false = d := rfl

theorem swap_azimuth_distance (d : DistanceData) (s : Bool) :
    (d.swap_azimuth s).distance = d.distance := by
  cases s <;> rfl

theorem swap_azimuth_involutive (d : DistanceData) (s : Bool) :
    (d.swap_azimuth s).swap_azimuth s = d := by
  cases s <;> rfl

theorem uncached_of_not_gt (solve : Solver) {x y : Position} (h : posGt x y = false) :
    uncached_distance solve x y = solve x y := by
  rw [uncached_eq, canonKey_of_not_gt h, h]
  rfl

theorem uncached_canon_pair (solve : Solver) (a b : Position) :
    uncached_distance solve (canonKey a b).1 (canonKey a b).2 =
      solve (canonKey a b).1 (canonKey a b).2 :=
  uncached_of_not_gt solve (posGt_canon a b)

/-! ### Cache operations -/

theorem cacheGet_insert_self (c : CacheMap) (k : Position × Position) (v : DistanceData) :
    cacheGet (cacheInsert c k v) k = some v := by
  have hfind : List.find? (fun e => keyEq e.1 k)
      ((k, v) :: c.filter (fun e => !(keyEq e.1 k))) = some (k, v) := by
    apply List.find?_cons_of_pos
    exact keyEq_self k
  unfold cacheGet cacheInsert
  rw [hfind]
  rfl

theorem find?_filter_of_imp {α : Type} (l : List α) (p q : α → Bool)
    (h : ∀ e, q e = true → p e = true) : (l.filter p).find? q = l.find? q := by
  induction l with
  | nil => rfl
  | cons x xs ih =>
    rw [List.filter_cons]
    by_cases hq : q x = true
    · rw [if_pos (h x hq), List.find?_cons_of_pos _ hq, List.find?_cons_of_pos _ hq]
    · by_cases hp : p x = true
      · rw [if_pos hp, List.find?_cons_of_neg _ hq, List.find?_cons_of_neg _ hq, ih]
      · rw [if_neg hp, List.find?_cons_of_neg _ hq, ih]

theorem cacheGet_insert_ne (c : CacheMap) (k j : Position × Position) (v : DistanceData)
    (h : j ≠ k) : cacheGet (cacheInsert c k v) j = cacheGet c j := by
  unfold cacheGet cacheInsert
  rw [List.find?_cons_of_neg]
  · rw [find?_filter_of_imp]
    intro e he
    have : e.1 = j := (keyEq_iff e.1 j).1 he
    rw [this, keyEq_false_of_ne h]
    rfl
  · intro hk
    exact h ((keyEq_iff k j).1 hk).symm

theorem cacheGet_mem {c : CacheMap} {k : Position × Position} {v : DistanceData}
    (h : cacheGet c k = some v) : (k, v) ∈ c := by
  unfold cacheGet at h
  cases hf : c.find? (fun e => keyEq e.1 k) with
  | none => rw [hf] at h; cases h
  | some e =>
    rw [hf] at h
    have hm := List.mem_of_find?_eq_some hf
    have hp := List.find?_some hf
    have hk : e.1 = k := (keyEq_iff e.1 k).1 hp
    have hv : e.2 = v := by
      simpa using h
    rw [← hk, ← hv]
    exact hm

/-! ### The cached path -/

theorem distance_unfold (solve : Solver) (c : CacheMap) (a b : Position) :
    distance solve c a b =
      (match cacheGet c (canonKey a b) with
        | some dist => (dist.swap_azimuth (posGt a b), c)
        | none =>
          ((uncached_distance solve (canonKey a b).1 (canonKey a b).2).swap_azimuth
              (posGt a b),
            cacheInsert c (canonKey a b)
              (uncached_distance solve (canonKey a b).1 (canonKey a b).2))) := rfl

theorem distance_hit (solve : Solver) (c : CacheMap) (a b : Position) (d : DistanceData)
    (h : cacheGet c (canonKey a b) = some d) :
    distance solve c a b = (d.swap_azimuth (posGt a b), c) := by
  rw [distance_unfold, h]

theorem distance_miss (solve : Solver) (c : CacheMap) (a b : Position)
    (h : cacheGet c (canonKey a b) = none) :
    distance solve c a b =
      ((solve (canonKey a b).1 (canonKey a b).2).swap_azimuth (posGt a b),
        cacheInsert c (canonKey a b) (solve (canonKey a b).1 (canonKey a b).2)) := by
  rw [distance_unfold, h, uncached_canon_pair]

theorem consistent_get {solve : Solver} {c : CacheMap} {k : Position × Position}
    {v : DistanceData} (hc : Consistent solve c) (h : cacheGet c k = some v) :
    v = uncached_distance solve k.1 k.2 :=
  hc (k, v) (cacheGet_mem h)

theorem consistent_insert {solve : Solver} {c : CacheMap} (hc : Consistent solve c)
    (k : Position × Position) (v : DistanceData) (hv : v = uncached_distance solve k.1 k.2) :
    Consistent solve (cacheInsert c k v) := by
  intro e he
  rcases List.mem_cons.1 he with rfl | he2
  · exact hv
  · exact hc e (List.mem_of_mem_filter he2)

theorem consistent_distance {solve : Solver} {c : CacheMap} (hc : Consistent solve c)
    (a b : Position) : Consistent solve (distance solve c a b).2 := by
  cases hg : cacheGet c (canonKey a b) with
  | some d =>
    rw [distance_hit solve c a b d hg]
    exact hc
  | none =>
    rw [distance_miss solve c a b hg]
    exact consistent_insert hc _ _ (uncached_canon_pair solve a b).symm

theorem distance_fst {solve : Solver} {c : CacheMap} (hc : Consistent solve c)
    (a b : Position) : (distance solve c a b).1 = uncached_distance solve a b := by
  cases hg : cacheGet c (canonKey a b) with
  | some d =>
    rw [distance_hit solve c a b d hg]
    rw [consistent_get hc hg, uncached_canon_pair, ← uncached_eq]
  | none =>
    rw [distance_miss solve c a b hg, ← uncached_eq]

/-! ### Counting entries of an unordered pair -/

theorem countP_filter_eq {α : Type} (l : List α) (p q : α → Bool)
    (h : ∀ e ∈ l, p e = true → q e = true) :
    List.countP p (l.filter q) = List.countP p l := by
  induction l with
  | nil => rfl
  | cons x xs ih =>
    rw [List.filter_cons]
    by_cases hq : q x = true
    · rw [if_pos hq]
      by_cases hp : p x = true
      · rw [List.countP_cons_of_pos _ _ hp, List.countP_cons_of_pos _ _ hp, ih]
        intro e he hpe
        exact h e (List.mem_cons_of_mem x he) hpe
      · rw [List.countP_cons_of_neg _ _ hp, List.countP_cons_of_neg _ _ hp, ih]
        intro e he hpe
        exact h e (List.mem_cons_of_mem x he) hpe
    · rw [if_neg hq]
      have hp : ¬ p x = true := fun hpx => hq (h x (List.mem_cons_self x xs) hpx)
      rw [List.countP_cons_of_neg _ _ hp, ih]
      intro e he hpe
      exact h e (List.mem_cons_of_mem x he) hpe

theorem pairCount_insert {c : CacheMap} {a b : Position} {k : Position × Position}
    (v : DistanceData) (hk : (keyEq k (a, b) || keyEq k (b, a)) = true) :
    pairCount (cacheInsert c k v) a b =
      pairCount (c.filter fun e => !(keyEq e.1 k)) a b + 1 := by
  unfold pairCount cacheInsert
  apply List.countP_cons_of_pos
  exact hk

theorem pairCount_filter_sub {c : CacheMap} {a b : Position} (k : Position × Position)
    (h : pairCount c a b = 0) :
    pairCount (c.filter fun e => !(keyEq e.1 k)) a b = 0 := by
  unfold pairCount at h ⊢
  rw [List.countP_eq_zero] at h ⊢
  intro e he
  exact h e (List.mem_of_mem_filter he)

theorem pairCount_filter_keep {c : CacheMap} {a b : Position} {k : Position × Position}
    (h : ∀ e ∈ c, (keyEq e.1 (a, b) || keyEq e.1 (b, a)) = true → keyEq e.1 k = false) :
    pairCount (c.filter fun e => !(keyEq e.1 k)) a b = pairCount c a b := by
  unfold pairCount
  apply countP_filter_eq
  intro e he hpe
  show (!(keyEq e.1 k)) = true
  rw [h e he hpe]
  rfl

theorem keyEq_canon_or (a b : Position) :
    (keyEq (canonKey a b) (a, b) || keyEq (canonKey a b) (b, a)) = true := by
  cases h : posGt a b
  · rw [canonKey_of_not_gt h]
    simp [keyEq_self]
  · rw [canonKey_of_gt h]
    simp [keyEq_self]

theorem pairCount_insert_canon {c : CacheMap} {a b : Position} (v : DistanceData)
    (h : pairCount c a b = 0) :
    pairCount (cacheInsert c (canonKey a b) v) a b = 1 := by
  rw [pairCount_insert v (keyEq_canon_or a b), pairCount_filter_sub _ h]

theorem pairCount_zero_get {c : CacheMap} {a b : Position} (h : pairCount c a b = 0) :
    cacheGet c (a, b) = none ∧ cacheGet c (b, a) = none := by
  unfold pairCount at h
  rw [List.countP_eq_zero] at h
  constructor
  · unfold cacheGet
    have hf : List.find? (fun e => keyEq e.1 (a, b)) c = none := by
      rw [List.find?_eq_none]
      intro e he hke
      exact h e he (by simp [show keyEq e.1 (a, b) = true from hke])
    rw [hf]
    rfl
  · unfold cacheGet
    have hf : List.find? (fun e => keyEq e.1 (b, a)) c = none := by
      rw [List.find?_eq_none]
      intro e he hke
      exact h e he (by simp [show keyEq e.1 (b, a) = true from hke])
    rw [hf]
    rfl

theorem pairCount_after_two_inserts {c : CacheMap} {a b : Position} (v1 v2 : DistanceData)
    (hne : a ≠ b) (h : pairCount c a b = 0) :
    pairCount (cacheInsert (cacheInsert c (a, b) v1) (b, a) v2) a b = 2 := by
  have hba : ((b, a) : Position × Position) ≠ (a, b) := fun hcon =>
    hne (congrArg Prod.snd hcon)
  have hab2 : ((a, b) : Position × Position) ≠ (b, a) := fun hcon => hba hcon.symm
  have hmem : ∀ e ∈ c, ¬ ((keyEq e.1 (a, b) || keyEq e.1 (b, a)) = true) := by
    unfold pairCount at h
    rw [List.countP_eq_zero] at h
    exact h
  have hk1 : (keyEq ((a, b) : Position × Position) (a, b) ||
      keyEq ((a, b) : Position × Position) (b, a)) = true := by
    simp [keyEq_self]
  have hk2 : (keyEq ((b, a) : Position × Position) (a, b) ||
      keyEq ((b, a) : Position × Position) (b, a)) = true := by
    simp [keyEq_self]
  rw [pairCount_insert v2 hk2]
  rw [pairCount_filter_keep]
  · rw [pairCount_insert v1 hk1, pairCount_filter_sub _ h]
  · intro e he hpe
    rcases List.mem_cons.1 he with rfl | he2
    · exact keyEq_false_of_ne hab2
    · exact absurd hpe (hmem e (List.mem_of_mem_filter he2))

/-! ### Claims -/

/-- C1 (cache transparency): on every cache state reachable by the protocol
(`Consistent`, which holds of the empty cache and is preserved by
`distance`), the cached `distance` returns the same `DistanceData` value as
`uncached_distance` on the same arguments, hit or miss. -/
theorem cache_transparency (solve : Solver) (c : CacheMap) (a b : Position)
    (hc : Consistent solve c) :
    (distance solve c a b).1 = uncached_distance solve a b ∧
    Consistent solve (distance solve c a b).2 :=
  ⟨distance_fst hc a b, consistent_distance hc a b⟩

/-- Witness for C1 at the concrete pair `(1.0,0)`, `(2.0,0)` with a concrete
solver and the empty cache. -/
theorem cache_transparency_witness :
    Consistent demoSolve [] ∧
    ((distance demoSolve [] pOne pTwo).1 = uncached_distance demoSolve pOne pTwo ∧
      Consistent demoSolve (distance demoSolve [] pOne pTwo).2) :=
  ⟨by decide, cache_transparency demoSolve [] pOne pTwo (by decide)⟩

/-- C2, counterexample to the claim as stated: for the valid positions
`(+0.0, 0.0)` and `(-0.0, 0.0)` (numerically equal, bitwise distinct)
neither order compares greater, so the two call orders reach the opaque
solver with swapped arguments and the claimed exact symmetry fails for a
legitimate pure solver. -/
theorem symmetry_cex :
    (distance signSolve [] pPosZero pNegZero).1.distance ≠
      (distance signSolve [] pNegZero pPosZero).1.distance := by decide

/-- C2 (amended): for every solver and consistent cache, if `a` and `b` are
strictly ordered in one direction or bit-identical, the distance is exactly
symmetric, and when they are strictly ordered the forward azimuth of one
order exactly equals the backward azimuth of the other.  (For a
bit-identical pair the azimuth clause would equate the forward and backward
azimuths of one and the same solver result, which canonicalization cannot
guarantee.) -/
theorem symmetry_of_comparable (solve : Solver) (c : CacheMap) (a b : Position)
    (hc : Consistent solve c)
    (hab : posGt a b = true ∨ posGt b a = true ∨ a = b) :
    (distance solve c a b).1.distance = (distance solve c b a).1.distance ∧
    (posGt a b = true ∨ posGt b a = true →
      (distance solve c a b).1.forward_azimuth =
        (distance solve c b a).1.backward_azimuth) := by
  refine ⟨?_, ?_⟩
  · rw [distance_fst hc a b, distance_fst hc b a]
    rcases hab with h | h | h
    · rw [uncached_eq solve a b, uncached_eq solve b a, canonKey_of_gt h, h,
        posGt_asymm h, canonKey_of_not_gt (posGt_asymm h)]
      rw [swap_azimuth_distance, swap_azimuth_distance]
    · rw [uncached_eq solve a b, uncached_eq solve b a, canonKey_of_gt h,
        posGt_asymm h, canonKey_of_not_gt (posGt_asymm h), h]
      rw [swap_azimuth_distance, swap_azimuth_distance]
    · subst h
      rfl
  · intro hstrict
    rw [distance_fst hc a b, distance_fst hc b a]
    rcases hstrict with h | h
    · rw [uncached_eq solve a b, uncached_eq solve b a, canonKey_of_gt h, h,
        posGt_asymm h, canonKey_of_not_gt (posGt_asymm h)]
      rfl
    · rw [uncached_eq solve a b, uncached_eq solve b a, canonKey_of_gt h,
        posGt_asymm h, canonKey_of_not_gt (posGt_asymm h), h]
      rfl

/-- Witness for the amended C2 at the ordered concrete pair `(2.0,0) > (1.0,0)`. -/
theorem symmetry_of_comparable_witness :
    Consistent demoSolve [] ∧
    (posGt pTwo pOne = true ∨ posGt pOne pTwo = true ∨ pTwo = pOne) ∧
    ((distance demoSolve [] pTwo pOne).1.distance =
        (distance demoSolve [] pOne pTwo).1.distance ∧
      (posGt pTwo pOne = true ∨ posGt pOne pTwo = true →
        (distance demoSolve [] pTwo pOne).1.forward_azimuth =
          (distance demoSolve [] pOne pTwo).1.backward_azimuth)) :=
  ⟨by decide, Or.inl (by decide),
    symmetry_of_comparable demoSolve [] pTwo pOne (by decide) (Or.inl (by decide))⟩

/-- C3 (canonicalizer contract): the canonicalization step computes
`flipped = posGt a b`, returns `(b, a)` when flipped and `(a, b)`
otherwise, and on a bit-identical pair `flipped` is false and the two
components coincide.  Purity is inherent in the embedding. -/
theorem canonicalizer_contract (a b : Position) :
    (posGt a b = true → canonKey a b = (b, a)) ∧
    (posGt a b = false → canonKey a b = (a, b)) ∧
    (a = b → posGt a b = false ∧ canonKey a b = (a, a)) := by
  refine ⟨canonKey_of_gt, canonKey_of_not_gt, ?_⟩
  rintro rfl
  refine ⟨posGt_self a, ?_⟩
  rw [canonKey_of_not_gt (posGt_self a)]

/-- C4, counterexample to the claim as stated: for the valid positions
`(+0.0, 0.0)` and `(-0.0, 0.0)` the two call orders store the same
unordered pair under two different keys, so after `resolve(A,B)` and
`resolve(B,A)` the cache holds two entries for `{A, B}`, not one. -/
theorem canonical_key_cex :
    pairCount (distance demoSolve (distance demoSolve [] pPosZero pNegZero).2
        pNegZero pPosZero).2 pPosZero pNegZero = 2 ∧
    pairCount (distance demoSolve (distance demoSolve [] pPosZero pNegZero).2
        pNegZero pPosZero).2 pPosZero pNegZero ≠ 1 := by decide

/-- C4 (amended): when `a` and `b` are strictly ordered in one direction or
bit-identical, calling `distance` in both argument orders starting from a
cache with no entry for the unordered pair leaves exactly one entry for it. -/
theorem canonical_key_unique (solve : Solver) (c : CacheMap) (a b : Position)
    (hab : posGt a b = true ∨ posGt b a = true ∨ a = b)
    (h0 : pairCount c a b = 0) :
    pairCount (distance solve (distance solve c a b).2 b a).2 a b = 1 := by
  obtain ⟨hga, hgb⟩ := pairCount_zero_get h0
  have hK : cacheGet c (canonKey a b) = none := by
    cases hp : posGt a b
    · rw [canonKey_of_not_gt hp]
      exact hga
    · rw [canonKey_of_gt hp]
      exact hgb
  have h2 : (distance solve c a b).2 =
      cacheInsert c (canonKey a b) (solve (canonKey a b).1 (canonKey a b).2) := by
    rw [distance_miss solve c a b hK]
  rw [h2]
  have hhit : cacheGet
      (cacheInsert c (canonKey a b) (solve (canonKey a b).1 (canonKey a b).2))
      (canonKey b a) = some (solve (canonKey a b).1 (canonKey a b).2) := by
    rw [canonKey_symm hab]
    exact cacheGet_insert_self _ _ _
  rw [distance_hit solve _ b a _ hhit]
  exact pairCount_insert_canon _ h0

/-- Witness for the amended C4 at the ordered concrete pair `(2.0,0) > (1.0,0)`. -/
theorem canonical_key_unique_witness :
    (posGt pTwo pOne = true ∨ posGt pOne pTwo = true ∨ pTwo = pOne) ∧
    pairCount ([] : CacheMap) pTwo pOne = 0 ∧
    pairCount (distance demoSolve (distance demoSolve [] pTwo pOne).2
      pOne pTwo).2 pTwo pOne = 1 :=
  ⟨Or.inl (by decide), by decide,
    canonical_key_unique demoSolve [] pTwo pOne (Or.inl (by decide)) (by decide)⟩

/-- C5, counterexample to the claim as stated: on the non-finite input
`(NaN, 0.0)` the code surfaces no failure kind: the all-NaN solver result
is returned as an ordinary `DistanceData`, and — contrary to "a failed
computation is never stored in the cache" — it is inserted into the cache. -/
theorem error_caching_cex :
    pNaN.lat.isNaN = true ∧
    (distance propagatingSolve [] pNaN pOne).1 = nanData ∧
    cacheGet (distance propagatingSolve [] pNaN pOne).2 (pNaN, pOne) = some nanData := by
  decide

/-- C5 (amended): `distance` has no error path: on every cache miss the
solver result — whatever it is, NaN-valued included — is stored in the
cache unconditionally, under the canonical key, and the solver is applied
exactly once to produce both the cached and the returned value. -/
theorem miss_always_caches (solve : Solver) (c : CacheMap) (a b : Position)
    (h : cacheGet c (canonKey a b) = none) :
    cacheGet (distance solve c a b).2 (canonKey a b) =
      some (solve (canonKey a b).1 (canonKey a b).2) := by
  have h2 : (distance solve c a b).2 =
      cacheInsert c (canonKey a b) (solve (canonKey a b).1 (canonKey a b).2) := by
    rw [distance_miss solve c a b h]
  rw [h2]
  exact cacheGet_insert_self _ _ _

/-- Witness for the amended C5 at the non-finite concrete input
`(NaN, 0.0)`, `(1.0, 0.0)` with the NaN-propagating solver. -/
theorem miss_always_caches_witness :
    cacheGet [] (canonKey pNaN pOne) = none ∧
    cacheGet (distance propagatingSolve [] pNaN pOne).2 (canonKey pNaN pOne) =
      some (propagatingSolve (canonKey pNaN pOne).1 (canonKey pNaN pOne).2) :=
  ⟨by decide, miss_always_caches propagatingSolve [] pNaN pOne (by decide)⟩

/-- C6 (stored-entry orientation): on every cache miss, the value inserted
under the canonical key is the raw solver result with no azimuth swap,
and only the locally returned copy is swapped (by `flip`). -/
theorem stored_entry_unswapped (solve : Solver) (c : CacheMap) (a b : Position)
    (h : cacheGet c (canonKey a b) = none) :
    (distance solve c a b).2 =
      cacheInsert c (canonKey a b) (solve (canonKey a b).1 (canonKey a b).2) ∧
    (distance solve c a b).1 =
      (solve (canonKey a b).1 (canonKey a b).2).swap_azimuth (posGt a b) := by
  rw [distance_miss solve c a b h]
  exact ⟨rfl, rfl⟩

/-- Witness for C6 at the flipped concrete pair `(2.0,0) > (1.0,0)` on the
empty cache. -/
theorem stored_entry_unswapped_witness :
    cacheGet [] (canonKey pTwo pOne) = none ∧
    ((distance demoSolve [] pTwo pOne).2 =
        cacheInsert [] (canonKey pTwo pOne)
          (demoSolve (canonKey pTwo pOne).1 (canonKey pTwo pOne).2) ∧
      (distance demoSolve [] pTwo pOne).1 =
        (demoSolve (canonKey pTwo pOne).1 (canonKey pTwo pOne).2).swap_azimuth
          (posGt pTwo pOne)) :=
  ⟨by decide, stored_entry_unswapped demoSolve [] pTwo pOne (by decide)⟩

/-- C7 (swap-directions algebra): `swap_azimuth` never changes the
distance field, is an involution, and when applied exchanges exactly the
two azimuth fields. -/
theorem swap_directions_algebra (d : DistanceData) (s : Bool) :
    (d.swap_azimuth s).distance = d.distance ∧
    (d.swap_azimuth s).swap_azimuth s = d ∧
    d.swap_azimuth true =
      { distance := d.distance, forward_azimuth := d.backward_azimuth,
        backward_azimuth := d.forward_azimuth } :=
  ⟨swap_azimuth_distance d s, swap_azimuth_involutive d s, rfl⟩

/-- C8: the cache is built with idle timeout 90 s and initial capacity 64
as claimed, but its maximum capacity is 65356 (src/src/lib.rs:105), not the
65536 the claim states. -/
theorem distance_cache_config_values :
    DISTANCE_CACHE_config.time_to_idle_secs = 90 ∧
    DISTANCE_CACHE_config.initial_capacity = 64 ∧
    DISTANCE_CACHE_config.max_capacity = 65356 ∧
    DISTANCE_CACHE_config.max_capacity ≠ 65536 := by
  refine ⟨rfl, rfl, rfl, ?_⟩
  decide

/-- C9 (bit-exact key equality): two positions are cache-key-equal exactly
when the byte images of both coordinates agree, i.e. when the bit patterns
are identical; the hasher input stream likewise determines the position.
In particular a NaN position equals itself as a key (no NaN-folding), and
positions differing only in the last mantissa bit are distinct keys. -/
theorem bit_exact_key_equality (p q : Position) :
    (positionEq p q = true ↔ p = q) ∧
    (hashInput p = hashInput q ↔ p = q) ∧
    positionEq pNaN pNaN = true ∧
    positionEq pOne pOneNext = false := by
  refine ⟨positionEq_iff p q, ?_, by decide, by decide⟩
  constructor
  · intro h
    unfold hashInput at h
    have hlen : (toBytes p.lat).length = (toBytes q.lat).length := rfl
    obtain ⟨h1, h2⟩ := List.append_inj h hlen
    have e1 : p.lat = q.lat := toBytes_inj h1
    have e2 : p.lon = q.lon := toBytes_inj h2
    exact show (⟨p.lat, p.lon⟩ : Position) = ⟨q.lat, q.lon⟩ by rw [e1, e2]
  · rintro rfl
    rfl

/-- C10, counterexample to the claim as stated: for `A = (1.0, NaN)`
(a NaN coordinate) and `B = (2.0, 0.0)`, the latitude comparison already
decides the order, so `B > A` is true — the comparison is not false in
both argument orders. -/
theorem order_mismatch_cex :
    pNanLon.lon.isNaN = true ∧ posGt pTwo pNanLon = true := by decide

/-- C10 (amended): for pairs whose lexicographic comparison is undefined
(hits a NaN) or ties (numerically equal coordinates), `A > B` is false in
both orders; both calls then pass their arguments to the solver in the
original order, and when the positions are bitwise distinct the two calls
store results under the two distinct keys `(a, b)` and `(b, a)` for the
same unordered pair. -/
theorem order_mismatch (solve : Solver) (c : CacheMap) (a b : Position)
    (h : posCmp a b = some Ordering.eq ∨ posCmp a b = none)
    (hne : a ≠ b) (h0 : pairCount c a b = 0) :
    posGt a b = false ∧ posGt b a = false ∧
    uncached_distance solve a b = solve a b ∧
    uncached_distance solve b a = solve b a ∧
    pairCount (distance solve (distance solve c a b).2 b a).2 a b = 2 := by
  have hgab : posGt a b = false := posGt_false_of_undecided h
  have hrev : posCmp b a = some Ordering.eq ∨ posCmp b a = none := by
    rcases h with h | h
    · exact Or.inl (posCmp_eq_symm h)
    · exact Or.inr (posCmp_none_symm h)
  have hgba : posGt b a = false := posGt_false_of_undecided hrev
  obtain ⟨hga, hgb⟩ := pairCount_zero_get h0
  have hco : canonKey a b = (a, b) := canonKey_of_not_gt hgab
  have hco2 : canonKey b a = (b, a) := canonKey_of_not_gt hgba
  have hK1 : cacheGet c (canonKey a b) = none := by
    rw [hco]
    exact hga
  have h2 : (distance solve c a b).2 =
      cacheInsert c (canonKey a b) (solve (canonKey a b).1 (canonKey a b).2) := by
    rw [distance_miss solve c a b hK1]
  have hba_ne : ((b, a) : Position × Position) ≠ (a, b) := fun hcon =>
    hne (congrArg Prod.snd hcon)
  have hK2 : cacheGet (distance solve c a b).2 (canonKey b a) = none := by
    rw [h2, hco, hco2, cacheGet_insert_ne c (a, b) (b, a) _ hba_ne]
    exact hgb
  have h3 : (distance solve (distance solve c a b).2 b a).2 =
      cacheInsert (distance solve c a b).2 (canonKey b a)
        (solve (canonKey b a).1 (canonKey b a).2) := by
    rw [distance_miss solve _ b a hK2]
  refine ⟨hgab, hgba, uncached_of_not_gt solve hgab, uncached_of_not_gt solve hgba, ?_⟩
  rw [h3, h2, hco, hco2]
  exact pairCount_after_two_inserts _ _ hne h0

/-- Witness for the amended C10 at the concrete bitwise-distinct,
numerically-equal pair `(+0.0, 0.0)` and `(-0.0, 0.0)` on the empty cache. -/
theorem order_mismatch_witness :
    (posCmp pPosZero pNegZero = some Ordering.eq ∨ posCmp pPosZero pNegZero = none) ∧
    pPosZero ≠ pNegZero ∧
    pairCount ([] : CacheMap) pPosZero pNegZero = 0 ∧
    (posGt pPosZero pNegZero = false ∧ posGt pNegZero pPosZero = false ∧
      uncached_distance demoSolve pPosZero pNegZero = demoSolve pPosZero pNegZero ∧
      uncached_distance demoSolve pNegZero pPosZero = demoSolve pNegZero pPosZero ∧
      pairCount (distance demoSolve (distance demoSolve [] pPosZero pNegZero).2
          pNegZero pPosZero).2 pPosZero pNegZero = 2) :=
  ⟨Or.inl (by decide), by decide, by decide,
    order_mismatch demoSolve [] pPosZero pNegZero (Or.inl (by decide))
      (by decide) (by decide)⟩
